import Mathlib

/-!
Verification development for the pricefeed service.

The definitions below are a shallow embedding of the candle aggregation and
rollup engine of the repository: JS numbers carrying prices and volumes are
modelled as rationals, unix-millisecond timestamps as naturals, and the
mutable per-pool arrays as Lean lists transformed functionally.  The main
source is the multi-pool service file (the one defining DATAPOINT_LIMITS,
updateOHLCData, validateAndFixOHLCContinuity, generateLongerInterval,
updateVolume, filterOHLCByTimeRange, limitDatapoints and the
/api/price/query route); the near-duplicate single-entity service in
src/index.js is embedded separately where its behaviour differs.
-/

/-- The ten fixed candle intervals tracked per pool. -/
inductive IntervalKey where
  | i1m | i5m | i15m | i30m | i1h | i6h | i12h | i24h | i1w | i1M
deriving DecidableEq

/-- Bucket width of each interval in milliseconds, as in the intervals
object of updateOHLCData. -/
def intervalMs : IntervalKey → Nat
  | .i1m => 60000
  | .i5m => 300000
  | .i15m => 900000
  | .i30m => 1800000
  | .i1h => 3600000
  | .i6h => 21600000
  | .i12h => 43200000
  | .i24h => 86400000
  | .i1w => 604800000
  | .i1M => 2592000000

/-- The DATAPOINT_LIMITS table: every interval is capped at 100 candles. -/
def DATAPOINT_LIMITS : IntervalKey → Nat := fun _ => 100

/-- The interval keys in the insertion order of the ohlc object, which is the
order Object.entries iterates them in. -/
def allIntervalKeys : List IntervalKey :=
  [.i1m, .i5m, .i15m, .i30m, .i1h, .i6h, .i12h, .i24h, .i1w, .i1M]

/-- An OHLC candle of the multi-pool service: bucket-start timestamp plus the
four price fields.  The JS field named open is called openP here because
open is a Lean keyword. -/
structure Candle where
  timestamp : Nat
  openP : ℚ
  high : ℚ
  low : ℚ
  close : ℚ
deriving DecidableEq

/-- The per-pool ohlc store: one candle list per interval. -/
abbrev Ohlc := IntervalKey → List Candle

/-- A freshly created pool has an empty candle list for every interval. -/
def emptyOhlc : Ohlc := fun _ => []

/-- Bucket start used throughout: Math.floor(timestamp / ms) * ms. -/
def bucketOf (width ts : Nat) : Nat := ts / width * width

/-- One interval step of updateOHLCData before the datapoint cap is applied:
if the list is empty or the last candle's window has elapsed, push a new
candle at the bucket start whose open is the previous close (or the price
when there is no previous candle) and whose high, low and close are the
price; otherwise update the last candle in place. -/
def updateIntervalCore (width : Nat) (ohlc : List Candle) (price : ℚ)
    (ts : Nat) : List Candle :=
  match ohlc.getLast? with
  | none => [⟨bucketOf width ts, price, price, price, price⟩]
  | some last =>
    if last.timestamp + width ≤ ts then
      ohlc ++ [⟨bucketOf width ts, last.close, price, price, price⟩]
    else
      ohlc.dropLast ++
        [{ last with high := max last.high price, low := min last.low price,
                     close := price }]

/-- The datapoint cap of updateOHLCData: when the list exceeds the limit,
slice(-limit) keeps the last limit entries. -/
def truncateTo (limit : Nat) (l : List Candle) : List Candle :=
  if limit < l.length then l.drop (l.length - limit) else l

/-- One interval step of updateOHLCData including the datapoint cap. -/
def updateInterval (width limit : Nat) (ohlc : List Candle) (price : ℚ)
    (ts : Nat) : List Candle :=
  truncateTo limit (updateIntervalCore width ohlc price ts)

/-- updateOHLCData of the multi-pool service: folds one price sample into
every interval independently. -/
def updateOHLCData (o : Ohlc) (price : ℚ) (ts : Nat) : Ohlc :=
  fun k => updateInterval (intervalMs k) (DATAPOINT_LIMITS k) (o k) price ts

/-- A sequence of update calls applied to a given ohlc store, oldest sample
first; each sample is a price paired with its timestamp. -/
def applySamplesFrom (o : Ohlc) (samples : List (ℚ × Nat)) : Ohlc :=
  samples.foldl (fun st s => updateOHLCData st s.1 s.2) o

/-- A sequence of update calls starting from an empty pool. -/
def applySamples (samples : List (ℚ × Nat)) : Ohlc :=
  applySamplesFrom emptyOhlc samples

/-- A candle of the single-entity service in src/index.js, which additionally
counts the updates folded into the candle in a volume field. -/
structure IndexCandle where
  timestamp : Nat
  openP : ℚ
  high : ℚ
  low : ℚ
  close : ℚ
  volume : Nat
deriving DecidableEq

/-- One interval step of updateOHLCData of the single-entity service in
src/index.js: a newly opened candle always has open = price, even when a
previous candle exists. -/
def indexUpdateInterval (width limit : Nat) (ohlc : List IndexCandle)
    (price : ℚ) (ts : Nat) : List IndexCandle :=
  let updated :=
    match ohlc.getLast? with
    | none => [⟨bucketOf width ts, price, price, price, price, 1⟩]
    | some last =>
      if last.timestamp + width ≤ ts then
        ohlc ++ [⟨bucketOf width ts, price, price, price, price, 1⟩]
      else
        ohlc.dropLast ++
          [{ last with high := max last.high price, low := min last.low price,
                       close := price, volume := last.volume + 1 }]
  if limit < updated.length then updated.drop (updated.length - limit)
  else updated

/-- Continuity predicate between adjacent candles: the later candle's open
equals the earlier candle's close. -/
def contOk (a b : Candle) : Prop := b.openP = a.close

/-- Count of continuity violations along a list, given the close of the
candle preceding it. -/
def cvGo (pc : ℚ) : List Candle → Nat
  | [] => 0
  | c :: rest => (if pc = c.openP then 0 else 1) + cvGo c.close rest

/-- Number of adjacent pairs of a candle list with prev.close different from
curr.open, exactly the pairs the continuity fixer repairs. -/
def countViolations : List Candle → Nat
  | [] => 0
  | c :: rest => cvGo c.close rest

/-- The repair loop of validateAndFixOHLCContinuity on the tail of a list,
given the (already processed) previous candle: whenever prev.close differs
from curr.open, curr.open is overwritten with prev.close and the fix counter
is bumped. -/
def fixRun (prev : Candle) : List Candle → List Candle × Nat
  | [] => ([], 0)
  | c :: rest =>
    let c2 := if prev.close = c.openP then c else { c with openP := prev.close }
    let r := fixRun c2 rest
    (c2 :: r.1, (if prev.close = c.openP then 0 else 1) + r.2)

/-- validateAndFixOHLCContinuity on a single interval's candle list. -/
def validateAndFixList (candles : List Candle) : List Candle × Nat :=
  match candles with
  | [] => ([], 0)
  | c :: rest =>
    let r := fixRun c rest
    (c :: r.1, r.2)

/-- validateAndFixOHLCContinuity over a whole pool: every interval is
repaired and the fix counts are summed. -/
def validateAndFixOHLCContinuity (o : Ohlc) : Ohlc × Nat :=
  (fun k => (validateAndFixList (o k)).1,
   (allIntervalKeys.map (fun k => (validateAndFixList (o k)).2)).sum)

/-- Specification-side repaired tail: each candle's open is replaced by the
previous candle's close. -/
def repairedGo (pc : ℚ) : List Candle → List Candle
  | [] => []
  | c :: rest => { c with openP := pc } :: repairedGo c.close rest

/-- Specification-side repaired list: the first candle is kept and every
later candle's open is replaced by its predecessor's close. -/
def repairedSpec : List Candle → List Candle
  | [] => []
  | c :: rest => c :: repairedGo c.close rest

/-- Seeding of a target candle in generateLongerInterval from the first
source candle of its bucket. -/
def seedFrom (b : Nat) (c : Candle) : Candle :=
  ⟨b, c.openP, c.high, c.low, c.close⟩

/-- Merge of a further source candle into an existing target candle in
generateLongerInterval: high = max, low = min, close = the source close. -/
def mergeCandle (t c : Candle) : Candle :=
  { t with high := max t.high c.high, low := min t.low c.low,
           close := c.close }

/-- result.find(c => c.timestamp === targetTimestamp) followed by an in-place
update: the first entry with the given timestamp is merged with the source
candle. -/
def updateFirstMatch (b : Nat) (c : Candle) : List Candle → List Candle
  | [] => []
  | r :: rest =>
    if r.timestamp = b then mergeCandle r c :: rest
    else r :: updateFirstMatch b c rest

/-- Whether the accumulator already holds a target candle for a bucket. -/
def containsTs (b : Nat) (l : List Candle) : Bool :=
  l.any (fun r => r.timestamp == b)

/-- One source candle folded into the accumulator of
generateLongerInterval. -/
def genStep (width : Nat) (acc : List Candle) (c : Candle) : List Candle :=
  let b := bucketOf width c.timestamp
  if containsTs b acc then updateFirstMatch b c acc
  else acc ++ [seedFrom b c]

/-- Stable insertion by timestamp, modelling the final ascending sort of
generateLongerInterval. -/
def insertByTs (c : Candle) : List Candle → List Candle
  | [] => [c]
  | d :: rest =>
    if c.timestamp ≤ d.timestamp then c :: d :: rest
    else d :: insertByTs c rest

/-- Ascending stable sort by timestamp. -/
def sortByTs (l : List Candle) : List Candle := l.foldr insertByTs []

/-- generateLongerInterval: re-buckets a source candle series into a coarser
interval and sorts the result ascending by timestamp. -/
def generateLongerInterval (sourceCandles : List Candle)
    (targetIntervalMs : Nat) : List Candle :=
  if sourceCandles.isEmpty then []
  else sortByTs (sourceCandles.foldl (genStep targetIntervalMs) [])

/-- Group-wise reformulation of the accumulator loop of
generateLongerInterval for sorted input: the current target candle absorbs
source candles of its bucket and is emitted when a later bucket starts. -/
def groupFoldGo (width : Nat) (cur : Candle) : List Candle → List Candle
  | [] => [cur]
  | c :: rest =>
    if bucketOf width c.timestamp = cur.timestamp then
      groupFoldGo width (mergeCandle cur c) rest
    else
      cur :: groupFoldGo width (seedFrom (bucketOf width c.timestamp) c) rest

/-- Aggregation contract of one derived candle against the source candles of
its bucket (listed in source order): the open is seeded from the first, the
close is the last one's close, and high and low are the maximum and minimum
of the bucket's highs and lows. -/
def Aggregates (g : List Candle) (c : Candle) : Prop :=
  ∃ gf gl, g.head? = some gf ∧ g.getLast? = some gl ∧
    c.openP = gf.openP ∧ c.close = gl.close ∧
    c.high ∈ g.map (fun s => s.high) ∧
    (∀ x ∈ g.map (fun s => s.high), x ≤ c.high) ∧
    c.low ∈ g.map (fun s => s.low) ∧
    (∀ x ∈ g.map (fun s => s.low), c.low ≤ x)

/-- JS truthiness of an optional numeric query parameter: absent parameters
and the value 0 are both falsy. -/
def jsTruthy (o : Option Nat) : Bool :=
  match o with
  | none => false
  | some n => n != 0

/-- filterOHLCByTimeRange: keeps candles after the from bound and before the
to bound, where a falsy bound (absent or zero) disables that side. -/
def filterOHLCByTimeRange (ohlcData : List Candle)
    (fromTs toTs : Option Nat) : List Candle :=
  ohlcData.filter (fun c =>
    ((!jsTruthy fromTs) || decide (fromTs.getD 0 ≤ c.timestamp)) &&
    ((!jsTruthy toTs) || decide (c.timestamp ≤ toTs.getD 0)))

/-- limitDatapoints with an explicit limit: when the data exceeds the limit,
slice(-limit) keeps the most recent entries. -/
def limitDatapointsWith (data : List Candle) (limit : Nat) : List Candle :=
  if data.length ≤ limit then data else data.drop (data.length - limit)

/-- limitDatapoints as in the source: the limit is the interval's
DATAPOINT_LIMITS entry. -/
def limitDatapoints (data : List Candle) (k : IntervalKey) : List Candle :=
  limitDatapointsWith data (DATAPOINT_LIMITS k)

/-- mapInterval: normalizes an interval token, accepting the canonical tags,
numeric aliases and the words for week and month. -/
def mapInterval (interval : String) : Option IntervalKey :=
  if interval = "1" ∨ interval = "1m" then some .i1m
  else if interval = "5" ∨ interval = "5m" then some .i5m
  else if interval = "15" ∨ interval = "15m" then some .i15m
  else if interval = "30" ∨ interval = "30m" then some .i30m
  else if interval = "60" ∨ interval = "1h" ∨ interval = "1hour" then some .i1h
  else if interval = "360" ∨ interval = "6" ∨ interval = "6h" then some .i6h
  else if interval = "720" ∨ interval = "12" ∨ interval = "12h" then some .i12h
  else if interval = "1440" ∨ interval = "24" ∨ interval = "24h" then
    some .i24h
  else if interval = "1w" ∨ interval = "week" then some .i1w
  else if interval = "1M" ∨ interval = "month" then some .i1M
  else none

/-- Outcome of the /api/price/query route after parameter parsing: a 400
rejection for a bad interval token, a 400 rejection for an inverted
timestamp range, or the filtered and limited candle list. -/
inductive QueryResult where
  | invalidInterval
  | invalidRange
  | ok (candles : List Candle)
deriving DecidableEq

/-- The /api/price/query route on parsed parameters: validates the interval
token, rejects from > to only when both parsed timestamps are truthy, then
filters the interval's candles by the range and applies the datapoint
limit. -/
def apiPriceQuery (o : Ohlc) (interval : String)
    (fromTs toTs : Option Nat) : QueryResult :=
  match mapInterval interval with
  | none => .invalidInterval
  | some key =>
    if jsTruthy fromTs && jsTruthy toTs &&
        decide (toTs.getD 0 < fromTs.getD 0) then
      .invalidRange
    else
      .ok (limitDatapoints (filterOHLCByTimeRange (o key) fromTs toTs) key)

/-- One recorded swap volume event: USD amount and timestamp. -/
structure VEntry where
  volume : ℚ
  timestamp : Nat
deriving DecidableEq

/-- The per-pool volume aggregate object. -/
structure VolumeStats where
  h24 : ℚ
  d7 : ℚ
  d30 : ℚ
  total : ℚ
  lastReset : Nat
deriving DecidableEq

/-- Rolling sum of the log entries at or after a cutoff, as computed by the
filter and reduce in updateVolume. -/
def sumSince (cutoff : Nat) (log : List VEntry) : ℚ :=
  (log.filter (fun e => decide (cutoff ≤ e.timestamp))).foldl
    (fun s e => s + e.volume) 0

/-- updateVolume on one pool's stats and the shared log: appends the event,
adds the amount to the pool's total, recomputes the 24h, 7d and 30d sums
over the whole log from scratch, and finally evicts entries older than 30
days from the head of the log. -/
def updateVolume (log : List VEntry) (vol : VolumeStats) (amount : ℚ)
    (now : Nat) : List VEntry × VolumeStats :=
  let log1 := log ++ [⟨amount, now⟩]
  let vol2 :=
    { vol with total := vol.total + amount,
               h24 := sumSince (now - 86400000) log1,
               d7 := sumSince (now - 604800000) log1,
               d30 := sumSince (now - 2592000000) log1 }
  (log1.dropWhile (fun e => e.timestamp < now - 2592000000), vol2)

/-- Specification-side window sum: total of the logged amounts with
timestamp inside the closed window. -/
def specWindowSum (log : List VEntry) (lo hi : Nat) : ℚ :=
  ((log.filter (fun e =>
      decide (lo ≤ e.timestamp) && decide (e.timestamp ≤ hi))).map
    (fun e => e.volume)).sum

/-- Process-wide volume state: the single shared volumeHistory array plus the
per-pool volume aggregates, keyed by pool address. -/
structure VolState where
  log : List VEntry
  pools : String → VolumeStats

/-- updateVolume lifted to the process state: the event for one pool is
appended to the shared log and only that pool's aggregates are rewritten. -/
def updateVolumePool (s : VolState) (addr : String) (amount : ℚ)
    (now : Nat) : VolState :=
  let r := updateVolume s.log (s.pools addr) amount now
  ⟨r.1, fun a => if a = addr then r.2 else s.pools a⟩

/-- The samples of scenario A: prices 10, 12 and 9 at t0, t0 + 30s and
t0 + 90s, with t0 = 0 on a minute boundary. -/
def scenarioASamples : List (ℚ × Nat) := [(10, 0), (12, 30000), (9, 90000)]

/-- A loaded 1h candle list for scenario C: continuous except that
candle[3].close is 100 while candle[4].open is 105. -/
def scenarioCList : List Candle :=
  [⟨0, 40, 55, 35, 50⟩,
   ⟨3600000, 50, 65, 45, 60⟩,
   ⟨7200000, 60, 85, 55, 80⟩,
   ⟨10800000, 80, 105, 75, 100⟩,
   ⟨14400000, 105, 115, 95, 110⟩]

/-- A loaded pool for scenario C: the discontinuous list sits in the 1h
interval and every other interval is empty. -/
def scenarioCOhlc : Ohlc :=
  fun k => if k = .i1h then scenarioCList else []

/-- An unsorted source list living in one 100ms target bucket, with the
chronologically last candle first. -/
def cexUnsortedSrc : List Candle :=
  [⟨70, 1, 1, 1, 5⟩, ⟨10, 2, 2, 2, 7⟩]

/-- Twenty qualifying 1h candles with timestamps 1..20. -/
def twentyCandles : List Candle :=
  (List.range 20).map (fun i => ⟨i + 1, 1, 1, 1, 1⟩)

/-- A pool whose 1h series holds a single candle at timestamp 100. -/
def oneCandleOhlc : Ohlc :=
  fun k => if k = .i1h then [⟨100, 1, 1, 1, 1⟩] else []

/-- The empty process-wide volume state: empty shared log and zeroed
aggregates for every pool. -/
def emptyVolState : VolState :=
  ⟨[], fun _ => ⟨0, 0, 0, 0, 0⟩⟩

/-- The branch condition of updateOHLCData under which a new candle is
pushed: the interval's candle list is empty, or the timestamp is at or past
the end of the last candle's window. -/
def opensNewCandle (width : Nat) (ohlc : List Candle) (ts : Nat) : Prop :=
  match ohlc.getLast? with
  | none => True
  | some last => last.timestamp + width ≤ ts

/-- Open price of a newly pushed candle: the previous candle's close when
one exists, else the sample's price. -/
def newOpenPrice (ohlc : List Candle) (price : ℚ) : ℚ :=
  match ohlc.getLast? with
  | none => price
  | some last => last.close

/-- A small sorted source series spanning two 100ms target buckets. -/
def deriveSrc : List Candle :=
  [⟨10, 1, 3, 0, 2⟩, ⟨70, 2, 5, 1, 4⟩, ⟨120, 4, 6, 2, 3⟩]

/-- A one-entry volume log used to instantiate the volume theorems. -/
def volWitnessLog : List VEntry := [⟨2, 1000⟩]

/-- Zeroed volume aggregates used to instantiate the volume theorems. -/
def volWitnessStats : VolumeStats := ⟨0, 0, 0, 0, 0⟩

/-! Helper lemmas about the datapoint cap. -/

theorem truncateTo_length_le (limit : Nat) (l : List Candle) :
    (truncateTo limit l).length ≤ limit := by
  unfold truncateTo
  split
  · rw [List.length_drop]
    omega
  · omega

theorem truncateTo_suffix (limit : Nat) (l : List Candle) :
    truncateTo limit l <:+ l := by
  unfold truncateTo
  split
  · exact List.drop_suffix _ _
  · exact List.suffix_rfl

theorem truncateTo_getLast? (limit : Nat) (l : List Candle)
    (h : 0 < limit) : (truncateTo limit l).getLast? = l.getLast? := by
  unfold truncateTo
  split
  · next hlen =>
    rw [List.getLast?_eq_getElem?, List.getLast?_eq_getElem?,
      List.getElem?_drop, List.length_drop]
    congr 1
    omega
  · rfl

/-- C5: after every update call, each interval's candle list has at most
DATAPOINT_LIMITS k candles (100 for every interval), and the kept candles
are a suffix of the untruncated list, so the excess is discarded from the
head, oldest first. -/
theorem update_respects_cap (o : Ohlc) (price : ℚ) (ts : Nat)
    (k : IntervalKey) :
    (updateOHLCData o price ts k).length ≤ DATAPOINT_LIMITS k ∧
    updateOHLCData o price ts k <:+
      updateIntervalCore (intervalMs k) (o k) price ts := by
  constructor
  · simp only [updateOHLCData, updateInterval]
    exact truncateTo_length_le _ _
  · simp only [updateOHLCData, updateInterval]
    exact truncateTo_suffix _ _

/-- C1 (amended): in the multi-pool service, when the current candle's
window has elapsed or the candle list is empty, the newly opened candle sits
at the bucket start, its open is the previous candle's close when one
exists (else the sample's price), and its high, low and close are all the
sample's price. -/
theorem newCandle_rule (k : IntervalKey) (ohlc : List Candle) (price : ℚ)
    (ts : Nat) (h : opensNewCandle (intervalMs k) ohlc ts) :
    (updateInterval (intervalMs k) (DATAPOINT_LIMITS k) ohlc price ts).getLast?
      = some ⟨bucketOf (intervalMs k) ts, newOpenPrice ohlc price,
              price, price, price⟩ := by
  unfold updateInterval
  rw [truncateTo_getLast? _ _ (by simp [DATAPOINT_LIMITS])]
  unfold opensNewCandle at h
  unfold updateIntervalCore newOpenPrice
  cases hl : ohlc.getLast? with
  | none => simp [hl]
  | some last =>
    rw [hl] at h
    simp only [hl]
    rw [if_pos h]
    exact List.getLast?_concat _

/-- Witness for C1's amended theorem: a 1m candle list whose last candle
closed at price 2 receives a sample of price 7 one window later; the new
candle opens at 2 and has high, low and close 7. -/
theorem newCandle_rule_witness :
    (updateInterval (intervalMs .i1m) (DATAPOINT_LIMITS .i1m)
        [⟨0, 1, 1, 1, 2⟩] 7 60000).getLast? =
      some ⟨60000, 2, 7, 7, 7⟩ := by
  have h := newCandle_rule .i1m [⟨0, 1, 1, 1, 2⟩] 7 60000
    (by simp [opensNewCandle, intervalMs])
  simpa using h

/-- C1 counterexample: the single-entity service's aggregator in
src/index.js opens the new candle with open = price, not the previous
candle's close; feeding price 5 after a candle that closed at 10 yields a
new candle with open 5 while the previous close was 10. -/
theorem newCandle_counterexample :
    indexUpdateInterval 60000 100 [⟨0, 10, 10, 10, 10, 1⟩] 5 60000 =
      [⟨0, 10, 10, 10, 10, 1⟩, ⟨60000, 5, 5, 5, 5, 1⟩] ∧
    ((5 : ℚ)) ≠ 10 := by decide

/-! Candle range invariant: the aggregator keeps low, close and high ordered
even though the continuity-seeded open can escape the range. -/

theorem mem_updateIntervalCore (width : Nat) (ohlc : List Candle)
    (price : ℚ) (ts : Nat) (c : Candle)
    (hc : c ∈ updateIntervalCore width ohlc price ts) :
    c ∈ ohlc ∨ (c.low ≤ c.close ∧ c.close ≤ c.high ∧ c.low ≤ c.high) := by
  unfold updateIntervalCore at hc
  cases hl : ohlc.getLast? with
  | none =>
    simp only [hl, List.mem_singleton] at hc
    subst hc
    exact Or.inr ⟨le_refl _, le_refl _, le_refl _⟩
  | some last =>
    simp only [hl] at hc
    by_cases hts : last.timestamp + width ≤ ts
    · rw [if_pos hts] at hc
      rcases List.mem_append.mp hc with h | h
      · exact Or.inl h
      · simp only [List.mem_singleton] at h
        subst h
        exact Or.inr ⟨le_refl _, le_refl _, le_refl _⟩
    · rw [if_neg hts] at hc
      rcases List.mem_append.mp hc with h | h
      · exact Or.inl (List.dropLast_subset _ h)
      · simp only [List.mem_singleton] at h
        subst h
        refine Or.inr ⟨min_le_right _ _, le_max_right _ _, ?_⟩
        exact le_trans (min_le_right _ _) (le_max_right _ _)

theorem updateOHLCData_rangeOk (o : Ohlc)
    (ho : ∀ k, ∀ c ∈ o k, c.low ≤ c.close ∧ c.close ≤ c.high ∧ c.low ≤ c.high)
    (price : ℚ) (ts : Nat) :
    ∀ k, ∀ c ∈ updateOHLCData o price ts k,
      c.low ≤ c.close ∧ c.close ≤ c.high ∧ c.low ≤ c.high := by
  intro k c hc
  have hmem : c ∈ updateIntervalCore (intervalMs k) (o k) price ts := by
    have hs : updateOHLCData o price ts k <:+
        updateIntervalCore (intervalMs k) (o k) price ts :=
      (update_respects_cap o price ts k).2
    exact hs.subset hc
  rcases mem_updateIntervalCore _ _ _ _ _ hmem with h | h
  · exact ho k c h
  · exact h

theorem applySamplesFrom_rangeOk (samples : List (ℚ × Nat)) :
    ∀ o : Ohlc,
      (∀ k, ∀ c ∈ o k,
        c.low ≤ c.close ∧ c.close ≤ c.high ∧ c.low ≤ c.high) →
      ∀ k, ∀ c ∈ applySamplesFrom o samples k,
        c.low ≤ c.close ∧ c.close ≤ c.high ∧ c.low ≤ c.high := by
  induction samples with
  | nil => intro o ho; exact ho
  | cons s rest ih =>
    intro o ho
    exact ih (updateOHLCData o s.1 s.2) (updateOHLCData_rangeOk o ho s.1 s.2)

/-- C4 (amended): after any sequence of update calls starting from an empty
series, every candle of every interval satisfies low ≤ close ≤ high and
low ≤ high; the continuity-seeded open is not confined to the range. -/
theorem candle_range_invariant (samples : List (ℚ × Nat)) (k : IntervalKey)
    (c : Candle) (hc : c ∈ applySamples samples k) :
    c.low ≤ c.close ∧ c.close ≤ c.high ∧ c.low ≤ c.high := by
  have hemp : ∀ k2, ∀ d ∈ emptyOhlc k2,
      d.low ≤ d.close ∧ d.close ≤ d.high ∧ d.low ≤ d.high := by
    intro k2 d hd
    simp [emptyOhlc] at hd
  exact applySamplesFrom_rangeOk samples emptyOhlc hemp k c hc

/-- Witness for C4's amended theorem: the single sample (3, 0) produces the
1m candle with timestamp 0 and all four prices 3, which satisfies the
range invariant. -/
theorem candle_range_invariant_witness :
    (⟨0, 3, 3, 3, 3⟩ : Candle) ∈ applySamples [((3 : ℚ), 0)] .i1m ∧
    ((3 : ℚ) ≤ 3 ∧ (3 : ℚ) ≤ 3 ∧ (3 : ℚ) ≤ 3) :=
  ⟨by decide,
   candle_range_invariant [((3 : ℚ), 0)] .i1m ⟨0, 3, 3, 3, 3⟩ (by decide)⟩

/-- C4 counterexample: two samples, price 10 then price 5 one minute later,
leave a second 1m candle whose continuity-seeded open is 10 while its high
is 5, so low ≤ open ≤ high fails on the code. -/
theorem candle_range_counterexample :
    applySamples [((10 : ℚ), 0), (5, 60000)] .i1m =
      [⟨0, 10, 10, 10, 10⟩, ⟨60000, 10, 5, 5, 5⟩] ∧
    ¬ ((10 : ℚ) ≤ 5) := by decide

/-- C3 (amended): scenario A on the multi-pool aggregator: the samples
(10, t0), (12, t0 + 30s), (9, t0 + 90s) with t0 = 0 produce the t0 candle
{open 10, high 12, low 10, close 12}, and the candle opened at the next
minute boundary has open 12 (the previous close) and high, low, close 9. -/
theorem scenarioA_actual :
    applySamples scenarioASamples .i1m =
      [⟨0, 10, 12, 10, 12⟩, ⟨60000, 12, 9, 9, 9⟩] := by decide

/-- C3 counterexample: the t0 candle of scenario A does not have low 9 and
close 9 as the claim states, and the candle opened at the next minute
boundary does not have open 9. -/
theorem scenarioA_counterexample :
    (applySamples scenarioASamples .i1m).head? ≠ some ⟨0, 10, 12, 9, 9⟩ ∧
    (applySamples scenarioASamples .i1m).getLast?.map (fun c => c.openP) ≠
      some 9 := by decide

/-! Continuity repair: the fix loop equals the specification-side repair and
counts exactly the violating pairs. -/

theorem fixRun_eq (l : List Candle) : ∀ prev : Candle,
    fixRun prev l = (repairedGo prev.close l, cvGo prev.close l) := by
  induction l with
  | nil => intro prev; rfl
  | cons c rest ih =>
    intro prev
    show (_, _) = _
    by_cases h : prev.close = c.openP
    · have hc2 : ({ c with openP := prev.close } : Candle) = c := by
        rw [h]
      simp only [fixRun, repairedGo, cvGo, if_pos h, ih]
      rw [hc2]
    · simp only [fixRun, repairedGo, cvGo, if_neg h, ih]

theorem validateAndFixList_eq (l : List Candle) :
    validateAndFixList l = (repairedSpec l, countViolations l) := by
  cases l with
  | nil => rfl
  | cons c rest =>
    simp only [validateAndFixList, repairedSpec, countViolations, fixRun_eq]

theorem chain_repairedGo (l : List Candle) : ∀ prev : Candle,
    List.Chain contOk prev (repairedGo prev.close l) := by
  induction l with
  | nil => intro prev; exact List.Chain.nil
  | cons c rest ih =>
    intro prev
    refine List.Chain.cons rfl ?_
    exact ih { c with openP := prev.close }

theorem chain_repairedSpec (l : List Candle) :
    List.Chain' contOk (repairedSpec l) := by
  cases l with
  | nil => trivial
  | cons c rest => exact chain_repairedGo rest c

/-- C2: validateAndRepair leaves every interval of every pool with
candle[i].open equal to candle[i-1].close for every consecutive pair, any
violating open having been overwritten with the previous close (and nothing
else changed), and returns the number of adjacent pairs that violated
continuity before the pass; on the scenario C pool, whose only
discontinuity is candle[3].close = 100 against candle[4].open = 105, the
repair count is 1 and candle[4].open becomes 100. -/
theorem continuity_repair_correct :
    (∀ (o : Ohlc) (k : IntervalKey),
        List.Chain' contOk ((validateAndFixOHLCContinuity o).1 k) ∧
        (validateAndFixOHLCContinuity o).1 k = repairedSpec (o k)) ∧
    (∀ o : Ohlc, (validateAndFixOHLCContinuity o).2 =
        (allIntervalKeys.map (fun k => countViolations (o k))).sum) ∧
    ((validateAndFixOHLCContinuity scenarioCOhlc).2 = 1 ∧
     ((validateAndFixOHLCContinuity scenarioCOhlc).1 IntervalKey.i1h)[4]? =
       some ⟨14400000, 100, 115, 95, 110⟩) := by
  refine ⟨fun o k => ?_, fun o => ?_, by decide, by decide⟩
  · have he : (validateAndFixOHLCContinuity o).1 k = repairedSpec (o k) := by
      show (validateAndFixList (o k)).1 = _
      rw [validateAndFixList_eq]
    rw [he]
    exact ⟨chain_repairedSpec (o k), rfl⟩
  · show (allIntervalKeys.map fun k => (validateAndFixList (o k)).2).sum = _
    simp only [validateAndFixList_eq]

/-! Query pipeline: range filtering and datapoint limiting. -/

theorem limitDatapointsWith_eq_reverseTake (l : List Candle) (limit : Nat) :
    limitDatapointsWith l limit = (l.reverse.take limit).reverse := by
  unfold limitDatapointsWith
  split
  · next h =>
    rw [List.take_of_length_le (by simpa using h), List.reverse_reverse]
  · next h =>
    have h1 : (l.drop (l.length - limit)).reverse = l.reverse.take limit := by
      rw [List.reverse_drop]
      congr 1
      omega
    calc l.drop (l.length - limit)
        = ((l.drop (l.length - limit)).reverse).reverse := by
          rw [List.reverse_reverse]
      _ = (l.reverse.take limit).reverse := by rw [h1]

theorem filterOHLC_some_some (l : List Candle) (fromTs toTs : Nat)
    (ht : toTs ≠ 0) :
    filterOHLCByTimeRange l (some fromTs) (some toTs) =
      l.filter (fun c =>
        decide (fromTs ≤ c.timestamp) && decide (c.timestamp ≤ toTs)) := by
  unfold filterOHLCByTimeRange
  apply List.filter_congr
  intro c _
  by_cases hf : fromTs = 0
  · subst hf
    simp [jsTruthy, ht]
  · have hf2 : (fromTs != 0) = true := by simpa using hf
    have ht2 : (toTs != 0) = true := by simpa using ht
    simp [jsTruthy, hf2, ht2]

/-- C8 (amended): for a nonzero to bound, the query pipeline (range filter
followed by the datapoint limit) returns exactly the candles whose
timestamp lies in the inclusive range, truncated to at most the limit by
keeping the entries nearest the end of the series, i.e. the most recent
ones; a zero to bound instead disables the upper filter. -/
theorem range_query_keeps_most_recent (ohlcData : List Candle)
    (fromTs toTs limit : Nat) (ht : toTs ≠ 0) :
    limitDatapointsWith
        (filterOHLCByTimeRange ohlcData (some fromTs) (some toTs)) limit =
      ((ohlcData.filter (fun c =>
          decide (fromTs ≤ c.timestamp) &&
          decide (c.timestamp ≤ toTs))).reverse.take limit).reverse := by
  rw [filterOHLC_some_some _ _ _ ht, limitDatapointsWith_eq_reverseTake]

/-- Witness for C8's amended theorem: twenty qualifying 1h candles with
timestamps 1..20 queried over the range 1..30 with limit 5 give exactly the
five most recent candles, timestamps 16..20. -/
theorem range_query_keeps_most_recent_witness :
    (limitDatapointsWith
        (filterOHLCByTimeRange twentyCandles (some 1) (some 30)) 5 =
      ((twentyCandles.filter (fun c =>
          decide (1 ≤ c.timestamp) &&
          decide (c.timestamp ≤ 30))).reverse.take 5).reverse) ∧
    limitDatapointsWith
        (filterOHLCByTimeRange twentyCandles (some 1) (some 30)) 5 =
      [⟨16, 1, 1, 1, 1⟩, ⟨17, 1, 1, 1, 1⟩, ⟨18, 1, 1, 1, 1⟩,
       ⟨19, 1, 1, 1, 1⟩, ⟨20, 1, 1, 1, 1⟩] :=
  ⟨range_query_keeps_most_recent twentyCandles 1 30 5 (by decide), by decide⟩

/-- C8 counterexample: with a provided to bound of 0, JS truthiness disables
the upper filter, so a candle at timestamp 5 is returned even though its
timestamp does not lie in the inclusive range from 0 to 0. -/
theorem range_query_counterexample :
    limitDatapointsWith
        (filterOHLCByTimeRange [⟨5, 1, 1, 1, 1⟩] (some 0) (some 0)) 100 =
      [⟨5, 1, 1, 1, 1⟩] ∧
    limitDatapointsWith
        ([(⟨5, 1, 1, 1, 1⟩ : Candle)].filter (fun c =>
          decide ((0 : Nat) ≤ c.timestamp) && decide (c.timestamp ≤ 0))) 100 =
      [] := by decide

/-- C9 (amended): when both parsed timestamps are provided and nonzero and
from exceeds to, the query route rejects the request with the invalid-range
error; a zero bound is falsy in JS and bypasses the check. -/
theorem invalid_range_rejected (o : Ohlc) (interval : String)
    (k : IntervalKey) (hk : mapInterval interval = some k)
    (fromTs toTs : Nat) (hf : fromTs ≠ 0) (ht : toTs ≠ 0)
    (hlt : toTs < fromTs) :
    apiPriceQuery o interval (some fromTs) (some toTs) =
      QueryResult.invalidRange := by
  unfold apiPriceQuery
  rw [hk]
  simp [jsTruthy, hf, ht, hlt]

/-- Witness for C9's amended theorem: a query on the 1h series with from 5
and to 3 is rejected as an invalid range. -/
theorem invalid_range_rejected_witness :
    apiPriceQuery oneCandleOhlc "1h" (some 5) (some 3) =
      QueryResult.invalidRange :=
  invalid_range_rejected oneCandleOhlc "1h" .i1h (by decide) 5 3
    (by decide) (by decide) (by decide)

/-- C9 counterexample: with from 5 and to 0 the range check is bypassed
because 0 is falsy, and the query returns the candle list instead of the
invalid-range error. -/
theorem invalid_range_counterexample :
    apiPriceQuery oneCandleOhlc "1h" (some 5) (some 0) =
      QueryResult.ok [⟨100, 1, 1, 1, 1⟩] ∧
    QueryResult.ok [(⟨100, 1, 1, 1, 1⟩ : Candle)] ≠
      QueryResult.invalidRange := by decide

/-! Volume window tracker. -/

theorem foldl_add_volume (l : List VEntry) : ∀ s : ℚ,
    l.foldl (fun s e => s + e.volume) s = s + (l.map (fun e => e.volume)).sum := by
  induction l with
  | nil => intro s; simp
  | cons e rest ih =>
    intro s
    simp only [List.foldl_cons, List.map_cons, List.sum_cons, ih]
    ring

theorem sumSince_map (lo : Nat) (l : List VEntry) :
    sumSince lo l =
      ((l.filter (fun e => decide (lo ≤ e.timestamp))).map
        (fun e => e.volume)).sum := by
  unfold sumSince
  rw [foldl_add_volume, zero_add]

theorem sumSince_append (lo : Nat) (l1 l2 : List VEntry) :
    sumSince lo (l1 ++ l2) = sumSince lo l1 + sumSince lo l2 := by
  rw [sumSince_map, sumSince_map, sumSince_map, List.filter_append,
    List.map_append, List.sum_append]

theorem sumSince_singleton_fresh (lo : Nat) (v : ℚ) (t : Nat) (h : lo ≤ t) :
    sumSince lo [⟨v, t⟩] = v := by
  simp [sumSince, h]

theorem sumSince_dropOld (l : List VEntry) (c1 lo : Nat) (h : c1 ≤ lo) :
    sumSince lo (l.dropWhile (fun e => decide (e.timestamp < c1))) =
      sumSince lo l := by
  conv_rhs => rw [← List.takeWhile_append_dropWhile
    (fun e => decide (e.timestamp < c1)) l]
  rw [sumSince_append]
  have hz : sumSince lo (l.takeWhile (fun e => decide (e.timestamp < c1)))
      = 0 := by
    rw [sumSince_map]
    have : (l.takeWhile (fun e => decide (e.timestamp < c1))).filter
        (fun e => decide (lo ≤ e.timestamp)) = [] := by
      apply List.filter_eq_nil_iff.mpr
      intro e he
      have h1 : e.timestamp < c1 := by
        simpa using List.mem_takeWhile_imp he
      simp
      omega
    rw [this]
    rfl
  rw [hz, zero_add]

theorem specWindow_dropOld (l : List VEntry) (c1 lo hi : Nat) (h : c1 ≤ lo) :
    specWindowSum (l.dropWhile (fun e => decide (e.timestamp < c1))) lo hi =
      specWindowSum l lo hi := by
  conv_rhs => rw [← List.takeWhile_append_dropWhile
    (fun e => decide (e.timestamp < c1)) l]
  unfold specWindowSum
  rw [List.filter_append, List.map_append, List.sum_append]
  have : (l.takeWhile (fun e => decide (e.timestamp < c1))).filter
      (fun e => decide (lo ≤ e.timestamp) && decide (e.timestamp ≤ hi))
      = [] := by
    apply List.filter_eq_nil_iff.mpr
    intro e he
    have h1 : e.timestamp < c1 := by
      simpa using List.mem_takeWhile_imp he
    simp
    omega
  rw [this]
  simp

theorem sumSince_eq_specWindow (l : List VEntry) (lo now : Nat)
    (h : ∀ e ∈ l, e.timestamp ≤ now) :
    sumSince lo l = specWindowSum l lo now := by
  rw [sumSince_map]
  unfold specWindowSum
  have hf : l.filter (fun e => decide (lo ≤ e.timestamp)) =
      l.filter (fun e =>
        decide (lo ≤ e.timestamp) && decide (e.timestamp ≤ now)) := by
    apply List.filter_congr
    intro e he
    simp [h e he]
  rw [hf]

theorem dropWhile_sorted_fresh (cutoff : Nat) : ∀ l : List VEntry,
    List.Pairwise (fun a b => a.timestamp ≤ b.timestamp) l →
    ∀ e ∈ l.dropWhile (fun e => decide (e.timestamp < cutoff)),
      cutoff ≤ e.timestamp := by
  intro l
  induction l with
  | nil => intro _ e he; simp [List.dropWhile] at he
  | cons a t ih =>
    intro hp e he
    rw [List.dropWhile_cons] at he
    by_cases h : a.timestamp < cutoff
    · rw [if_pos (by simpa using h)] at he
      exact ih (List.pairwise_cons.mp hp).2 e he
    · rw [if_neg (by simpa using h)] at he
      rcases List.mem_cons.mp he with h1 | h1
      · subst h1; omega
      · have := (List.pairwise_cons.mp hp).1 e h1
        omega

/-- C7: every recordVolume call adds the amount to the pool's total,
recomputes each of the 24h, 7d and 30d aggregates as the sum of the logged
amounts whose timestamp lies in the trailing window ending at now, and then
evicts the over-30-day entries from the head of the log, so that the kept
log is a suffix of the appended log containing no entry older than 30
days.  The hypotheses state that the log is in timestamp order and contains
no entry from the future, which holds for the append-only clock-stamped
volumeHistory. -/
theorem recordVolume_spec (log : List VEntry) (vol : VolumeStats)
    (amount : ℚ) (now : Nat)
    (hsort : List.Pairwise (fun a b => a.timestamp ≤ b.timestamp) log)
    (hnow : ∀ e ∈ log, e.timestamp ≤ now) :
    (updateVolume log vol amount now).2.total = vol.total + amount ∧
    (updateVolume log vol amount now).2.h24 =
      specWindowSum (updateVolume log vol amount now).1
        (now - 86400000) now ∧
    (updateVolume log vol amount now).2.d7 =
      specWindowSum (updateVolume log vol amount now).1
        (now - 604800000) now ∧
    (updateVolume log vol amount now).2.d30 =
      specWindowSum (updateVolume log vol amount now).1
        (now - 2592000000) now ∧
    (updateVolume log vol amount now).1 <:+ log ++ [⟨amount, now⟩] ∧
    ∀ e ∈ (updateVolume log vol amount now).1,
      now - 2592000000 ≤ e.timestamp := by
  have hl1 : ∀ e ∈ log ++ [(⟨amount, now⟩ : VEntry)], e.timestamp ≤ now := by
    intro e he
    rcases List.mem_append.mp he with h | h
    · exact hnow e h
    · simp only [List.mem_singleton] at h
      subst h
      exact le_refl _
  have hsort1 : List.Pairwise (fun a b => a.timestamp ≤ b.timestamp)
      (log ++ [(⟨amount, now⟩ : VEntry)]) := by
    rw [List.pairwise_append]
    refine ⟨hsort, List.pairwise_singleton _ _, ?_⟩
    intro x hx y hy
    simp only [List.mem_singleton] at hy
    subst hy
    exact hnow x hx
  have hwin : ∀ lo : Nat, now - 2592000000 ≤ lo →
      sumSince lo (log ++ [(⟨amount, now⟩ : VEntry)]) =
        specWindowSum ((log ++ [(⟨amount, now⟩ : VEntry)]).dropWhile
          (fun e => decide (e.timestamp < now - 2592000000))) lo now := by
    intro lo hlo
    rw [specWindow_dropOld _ _ _ _ hlo]
    exact sumSince_eq_specWindow _ _ _ hl1
  refine ⟨rfl, ?_, ?_, ?_, ?_, ?_⟩
  · exact hwin (now - 86400000)
      (Nat.sub_le_sub_left (by norm_num) now)
  · exact hwin (now - 604800000)
      (Nat.sub_le_sub_left (by norm_num) now)
  · exact hwin (now - 2592000000) (le_refl _)
  · exact ⟨(log ++ [(⟨amount, now⟩ : VEntry)]).takeWhile
      (fun e => decide (e.timestamp < now - 2592000000)),
      List.takeWhile_append_dropWhile _ _⟩
  · exact dropWhile_sorted_fresh _ _ hsort1

/-- Witness for C7: a one-entry log at timestamp 1000 with zeroed stats
receives an event of 3 USD at now = 2000; the theorem's hypotheses hold by
computation. -/
theorem recordVolume_spec_witness :
    (updateVolume volWitnessLog volWitnessStats 3 2000).2.total =
      volWitnessStats.total + 3 ∧
    (updateVolume volWitnessLog volWitnessStats 3 2000).2.h24 =
      specWindowSum (updateVolume volWitnessLog volWitnessStats 3 2000).1
        (2000 - 86400000) 2000 ∧
    (updateVolume volWitnessLog volWitnessStats 3 2000).2.d7 =
      specWindowSum (updateVolume volWitnessLog volWitnessStats 3 2000).1
        (2000 - 604800000) 2000 ∧
    (updateVolume volWitnessLog volWitnessStats 3 2000).2.d30 =
      specWindowSum (updateVolume volWitnessLog volWitnessStats 3 2000).1
        (2000 - 2592000000) 2000 ∧
    (updateVolume volWitnessLog volWitnessStats 3 2000).1 <:+
      volWitnessLog ++ [⟨3, 2000⟩] ∧
    ∀ e ∈ (updateVolume volWitnessLog volWitnessStats 3 2000).1,
      2000 - 2592000000 ≤ e.timestamp :=
  recordVolume_spec volWitnessLog volWitnessStats 3 2000 (by decide)
    (by decide)

/-! Shared volume log across pools. -/

theorem updateVolume_total (log : List VEntry) (vol : VolumeStats)
    (amount : ℚ) (now : Nat) :
    (updateVolume log vol amount now).2.total = vol.total + amount := rfl

theorem updateVolume_h24 (log : List VEntry) (vol : VolumeStats)
    (amount : ℚ) (now : Nat) :
    (updateVolume log vol amount now).2.h24 =
      sumSince (now - 86400000) (log ++ [⟨amount, now⟩]) := rfl

theorem updateVolume_d7 (log : List VEntry) (vol : VolumeStats)
    (amount : ℚ) (now : Nat) :
    (updateVolume log vol amount now).2.d7 =
      sumSince (now - 604800000) (log ++ [⟨amount, now⟩]) := rfl

theorem updateVolume_d30 (log : List VEntry) (vol : VolumeStats)
    (amount : ℚ) (now : Nat) :
    (updateVolume log vol amount now).2.d30 =
      sumSince (now - 2592000000) (log ++ [⟨amount, now⟩]) := rfl

theorem updateVolume_log_eq (log : List VEntry) (vol : VolumeStats)
    (amount : ℚ) (now : Nat) :
    (updateVolume log vol amount now).1 =
      (log ++ [(⟨amount, now⟩ : VEntry)]).dropWhile
        (fun e => decide (e.timestamp < now - 2592000000)) := rfl

theorem updateVolumePool_pools_self (s : VolState) (addr : String)
    (amount : ℚ) (now : Nat) :
    (updateVolumePool s addr amount now).pools addr =
      (updateVolume s.log (s.pools addr) amount now).2 := by
  simp [updateVolumePool]

theorem updateVolumePool_pools_other (s : VolState) (addr addr2 : String)
    (amount : ℚ) (now : Nat) (h : addr2 ≠ addr) :
    (updateVolumePool s addr amount now).pools addr2 = s.pools addr2 := by
  simp [updateVolumePool, h]

theorem updateVolumePool_log (s : VolState) (addr : String) (amount : ℚ)
    (now : Nat) :
    (updateVolumePool s addr amount now).log =
      (updateVolume s.log (s.pools addr) amount now).1 := rfl

theorem vsuffix_append_right {l1 l2 : List VEntry} (t : List VEntry)
    (h : l1 <:+ l2) : l1 ++ t <:+ l2 ++ t := by
  obtain ⟨p, hp⟩ := h
  refine ⟨p, ?_⟩
  rw [← List.append_assoc, hp]

theorem dropWhile_vsuffix (p : VEntry → Bool) (l : List VEntry) :
    l.dropWhile p <:+ l :=
  ⟨l.takeWhile p, List.takeWhile_append_dropWhile p l⟩

/-- C10 (amended): the volume log is one process-wide array shared by every
pool, so an event recorded for one pool is counted by every later window
recomputation for any pool: after updating pool A and then pool B at the
same instant, B's 24h, 7d and 30d sums each equal A's corresponding sum
plus B's own amount (A's event counts toward B, but A's stored sums are
stale and do not include B's later event, so the two pools do not report
identical sums unless B's amount is zero); only total is accumulated per
pool, and the resulting log is a suffix of the original shared log with
both events appended. -/
theorem shared_volume_log (s : VolState) (addrA addrB : String) (a b : ℚ)
    (now : Nat) (hab : addrA ≠ addrB) :
    ((updateVolumePool (updateVolumePool s addrA a now) addrB b now).pools
        addrB).h24 =
      ((updateVolumePool (updateVolumePool s addrA a now) addrB b now).pools
        addrA).h24 + b ∧
    ((updateVolumePool (updateVolumePool s addrA a now) addrB b now).pools
        addrB).d7 =
      ((updateVolumePool (updateVolumePool s addrA a now) addrB b now).pools
        addrA).d7 + b ∧
    ((updateVolumePool (updateVolumePool s addrA a now) addrB b now).pools
        addrB).d30 =
      ((updateVolumePool (updateVolumePool s addrA a now) addrB b now).pools
        addrA).d30 + b ∧
    ((updateVolumePool (updateVolumePool s addrA a now) addrB b now).pools
        addrA).total = (s.pools addrA).total + a ∧
    ((updateVolumePool (updateVolumePool s addrA a now) addrB b now).pools
        addrB).total = (s.pools addrB).total + b ∧
    (updateVolumePool (updateVolumePool s addrA a now) addrB b now).log <:+
      s.log ++ [⟨a, now⟩] ++ [⟨b, now⟩] := by
  have hba : addrB ≠ addrA := Ne.symm hab
  have hA2 : (updateVolumePool (updateVolumePool s addrA a now) addrB b
      now).pools addrA = (updateVolume s.log (s.pools addrA) a now).2 := by
    rw [updateVolumePool_pools_other _ _ _ _ _ hab,
      updateVolumePool_pools_self]
  have hB2 : (updateVolumePool (updateVolumePool s addrA a now) addrB b
      now).pools addrB =
      (updateVolume (updateVolumePool s addrA a now).log (s.pools addrB) b
        now).2 := by
    rw [updateVolumePool_pools_self,
      updateVolumePool_pools_other _ _ _ _ _ hba]
  have hwin : ∀ lo : Nat, now - 2592000000 ≤ lo → lo ≤ now →
      sumSince lo ((updateVolumePool s addrA a now).log ++ [⟨b, now⟩]) =
        sumSince lo (s.log ++ [⟨a, now⟩]) + b := by
    intro lo hlo hlo2
    rw [sumSince_append, updateVolumePool_log, updateVolume_log_eq,
      sumSince_dropOld _ _ _ hlo, sumSince_singleton_fresh _ _ _ hlo2]
  refine ⟨?_, ?_, ?_, ?_, ?_, ?_⟩
  · rw [hA2, hB2, updateVolume_h24, updateVolume_h24]
    exact hwin _ (Nat.sub_le_sub_left (by norm_num) now) (Nat.sub_le _ _)
  · rw [hA2, hB2, updateVolume_d7, updateVolume_d7]
    exact hwin _ (Nat.sub_le_sub_left (by norm_num) now) (Nat.sub_le _ _)
  · rw [hA2, hB2, updateVolume_d30, updateVolume_d30]
    exact hwin _ (le_refl _) (Nat.sub_le _ _)
  · rw [hA2, updateVolume_total]
  · rw [hB2, updateVolume_total]
  · rw [updateVolumePool_log, updateVolume_log_eq]
    have h2 : (updateVolumePool s addrA a now).log <:+
        s.log ++ [⟨a, now⟩] := by
      rw [updateVolumePool_log, updateVolume_log_eq]
      exact dropWhile_vsuffix _ _
    exact (dropWhile_vsuffix _ _).trans (vsuffix_append_right _ h2)

/-- Witness for C10's amended theorem: starting from the empty state, pool
a records 5 USD and then pool b records 7 USD at now = 1. -/
theorem shared_volume_log_witness :
    ((updateVolumePool (updateVolumePool emptyVolState "a" 5 1) "b" 7
        1).pools "b").h24 =
      ((updateVolumePool (updateVolumePool emptyVolState "a" 5 1) "b" 7
        1).pools "a").h24 + 7 ∧
    ((updateVolumePool (updateVolumePool emptyVolState "a" 5 1) "b" 7
        1).pools "b").d7 =
      ((updateVolumePool (updateVolumePool emptyVolState "a" 5 1) "b" 7
        1).pools "a").d7 + 7 ∧
    ((updateVolumePool (updateVolumePool emptyVolState "a" 5 1) "b" 7
        1).pools "b").d30 =
      ((updateVolumePool (updateVolumePool emptyVolState "a" 5 1) "b" 7
        1).pools "a").d30 + 7 ∧
    ((updateVolumePool (updateVolumePool emptyVolState "a" 5 1) "b" 7
        1).pools "a").total = (emptyVolState.pools "a").total + 5 ∧
    ((updateVolumePool (updateVolumePool emptyVolState "a" 5 1) "b" 7
        1).pools "b").total = (emptyVolState.pools "b").total + 7 ∧
    (updateVolumePool (updateVolumePool emptyVolState "a" 5 1) "b" 7
      1).log <:+ emptyVolState.log ++ [⟨5, 1⟩] ++ [⟨7, 1⟩] :=
  shared_volume_log emptyVolState "a" "b" 5 7 1 (by decide)

/-- C10 counterexample: after pool a records 5 USD and pool b records 7 USD
at the same instant, pool a reports a 24h sum of 5 while pool b reports 12,
so the two pools do not report identical window sums. -/
theorem shared_volume_counterexample :
    ((updateVolumePool (updateVolumePool emptyVolState "a" 5 1) "b" 7
        1).pools "a").h24 = 5 ∧
    ((updateVolumePool (updateVolumePool emptyVolState "a" 5 1) "b" 7
        1).pools "b").h24 = 12 ∧
    ((5 : ℚ)) ≠ 12 := by
  refine ⟨?_, ?_, by norm_num⟩
  · rw [updateVolumePool_pools_other _ _ _ _ _
      (by decide : ("a" : String) ≠ "b"), updateVolumePool_pools_self,
      updateVolume_h24]
    rw [show emptyVolState.log ++ [(⟨5, 1⟩ : VEntry)] = [⟨5, 1⟩] from rfl,
      sumSince_singleton_fresh _ _ _ (Nat.sub_le _ _)]
  · rw [updateVolumePool_pools_self, updateVolumePool_pools_other _ _ _ _ _
      (by decide : ("b" : String) ≠ "a"), updateVolume_h24,
      updateVolumePool_log, updateVolume_log_eq]
    rw [show (emptyVolState.log ++ [(⟨5, 1⟩ : VEntry)]).dropWhile
        (fun e => decide (e.timestamp < 1 - 2592000000)) = [⟨5, 1⟩] from rfl]
    rw [sumSince_append, sumSince_singleton_fresh _ _ _ (Nat.sub_le _ _),
      sumSince_singleton_fresh _ _ _ (Nat.sub_le _ _)]
    norm_num

/-! Interval derivation: the accumulator loop of generateLongerInterval on
sorted input equals a group-wise fold, whose output candles aggregate their
bucket's source candles. -/

theorem bucketOf_mono (W : Nat) {t1 t2 : Nat} (h : t1 ≤ t2) :
    bucketOf W t1 ≤ bucketOf W t2 :=
  Nat.mul_le_mul_right W (Nat.div_le_div_right h)

theorem mergeCandle_timestamp (t c : Candle) :
    (mergeCandle t c).timestamp = t.timestamp := rfl

theorem groupFoldGo_nil (W : Nat) (cur : Candle) :
    groupFoldGo W cur [] = [cur] := rfl

theorem groupFoldGo_cons (W : Nat) (cur c : Candle) (rest : List Candle) :
    groupFoldGo W cur (c :: rest) =
      if bucketOf W c.timestamp = cur.timestamp then
        groupFoldGo W (mergeCandle cur c) rest
      else
        cur :: groupFoldGo W (seedFrom (bucketOf W c.timestamp) c) rest := rfl

theorem updateFirstMatch_append (b : Nat) (c : Candle) :
    ∀ (pre : List Candle) (cur : Candle),
    (∀ r ∈ pre, r.timestamp ≠ b) → cur.timestamp = b →
    updateFirstMatch b c (pre ++ [cur]) = pre ++ [mergeCandle cur c] := by
  intro pre
  induction pre with
  | nil =>
    intro cur _ hcur
    simp [updateFirstMatch, hcur]
  | cons r pre2 ih =>
    intro cur hpre hcur
    have hr : r.timestamp ≠ b := hpre r (List.mem_cons_self _ _)
    show updateFirstMatch b c (r :: (pre2 ++ [cur])) =
      r :: (pre2 ++ [mergeCandle cur c])
    simp only [updateFirstMatch]
    rw [if_neg hr]
    exact congrArg (fun t => r :: t)
      (ih cur (fun x hx => hpre x (List.mem_cons_of_mem _ hx)) hcur)

theorem foldl_genStep_eq (W : Nat) :
    ∀ (rest pre : List Candle) (cur : Candle),
    (∀ r ∈ pre, r.timestamp < cur.timestamp) →
    (∀ c ∈ rest, cur.timestamp ≤ bucketOf W c.timestamp) →
    List.Pairwise (fun a b => a.timestamp ≤ b.timestamp) rest →
    List.foldl (genStep W) (pre ++ [cur]) rest =
      pre ++ groupFoldGo W cur rest := by
  intro rest
  induction rest with
  | nil => intro pre cur _ _ _; rfl
  | cons c rest2 ih =>
    intro pre cur hpre hrest hsort
    have hcb : cur.timestamp ≤ bucketOf W c.timestamp :=
      hrest c (List.mem_cons_self _ _)
    have hsort2 := (List.pairwise_cons.mp hsort).2
    have hhead := (List.pairwise_cons.mp hsort).1
    rw [List.foldl_cons]
    by_cases hb : bucketOf W c.timestamp = cur.timestamp
    · have hct : containsTs (bucketOf W c.timestamp) (pre ++ [cur])
          = true := by
        simp only [containsTs, List.any_append, List.any_cons, List.any_nil,
          Bool.or_false]
        have hself : (cur.timestamp == bucketOf W c.timestamp) = true := by
          rw [hb]
          exact beq_self_eq_true _
        rw [hself, Bool.or_true]
      have hstep : genStep W (pre ++ [cur]) c =
          pre ++ [mergeCandle cur c] := by
        simp only [genStep]
        rw [hct, if_pos rfl]
        exact updateFirstMatch_append _ _ pre cur
          (fun r hr => by have := hpre r hr; omega) hb.symm
      rw [hstep, ih pre (mergeCandle cur c)
        (fun r hr => hpre r hr)
        (fun x hx => hrest x (List.mem_cons_of_mem _ hx))
        hsort2]
      rw [groupFoldGo_cons, if_pos hb]
    · have hlt : cur.timestamp < bucketOf W c.timestamp :=
        lt_of_le_of_ne hcb (fun h => hb h.symm)
      have hct : containsTs (bucketOf W c.timestamp) (pre ++ [cur])
          = false := by
        simp only [containsTs, List.any_append, List.any_cons, List.any_nil,
          Bool.or_false, Bool.or_eq_false_iff]
        constructor
        · rw [List.any_eq_false]
          intro r hr
          simp only [beq_iff_eq]
          have := hpre r hr
          omega
        · simp only [beq_eq_false_iff_ne, ne_eq]
          omega
      have hstep : genStep W (pre ++ [cur]) c =
          (pre ++ [cur]) ++ [seedFrom (bucketOf W c.timestamp) c] := by
        simp only [genStep]
        rw [hct, if_neg Bool.false_ne_true]
      rw [hstep, ih (pre ++ [cur]) (seedFrom (bucketOf W c.timestamp) c)
        ?_ ?_ hsort2]
      · rw [List.append_assoc, groupFoldGo_cons, if_neg hb]
        rfl
      · intro r hr
        rcases List.mem_append.mp hr with h1 | h1
        · have := hpre r h1
          show r.timestamp < bucketOf W c.timestamp
          omega
        · simp only [List.mem_singleton] at h1
          subst h1
          exact hlt
      · intro x hx
        show bucketOf W c.timestamp ≤ bucketOf W x.timestamp
        exact bucketOf_mono W (hhead x hx)

theorem sortByTs_of_chain : ∀ l : List Candle,
    List.Chain' (fun a b => a.timestamp ≤ b.timestamp) l →
    sortByTs l = l := by
  intro l
  induction l with
  | nil => intro _; rfl
  | cons a t ih =>
    intro h
    show insertByTs a (sortByTs t) = a :: t
    rw [ih h.tail]
    cases t with
    | nil => rfl
    | cons b t2 =>
      have hab : a.timestamp ≤ b.timestamp := (List.chain'_cons.mp h).1
      simp [insertByTs, hab]

theorem groupFoldGo_head (W : Nat) : ∀ (rest : List Candle) (cur : Candle),
    ∃ d l2, groupFoldGo W cur rest = d :: l2 ∧
      d.timestamp = cur.timestamp := by
  intro rest
  induction rest with
  | nil => intro cur; exact ⟨cur, [], rfl, rfl⟩
  | cons c rest2 ih =>
    intro cur
    by_cases hb : bucketOf W c.timestamp = cur.timestamp
    · obtain ⟨d, l2, he, ht⟩ := ih (mergeCandle cur c)
      refine ⟨d, l2, ?_, ?_⟩
      · rw [groupFoldGo_cons, if_pos hb]
        exact he
      · rw [ht]
        rfl
    · refine ⟨cur,
        groupFoldGo W (seedFrom (bucketOf W c.timestamp) c) rest2, ?_, rfl⟩
      rw [groupFoldGo_cons, if_neg hb]

theorem groupFoldGo_ts_lb (W : Nat) : ∀ (rest : List Candle) (cur : Candle),
    (∀ x ∈ rest, cur.timestamp ≤ bucketOf W x.timestamp) →
    List.Pairwise (fun a b => a.timestamp ≤ b.timestamp) rest →
    ∀ d ∈ groupFoldGo W cur rest, cur.timestamp ≤ d.timestamp := by
  intro rest
  induction rest with
  | nil =>
    intro cur _ _ d hd
    rw [groupFoldGo_nil, List.mem_singleton] at hd
    subst hd
    exact le_refl _
  | cons c rest2 ih =>
    intro cur hrest hsort d hd
    have hcb : cur.timestamp ≤ bucketOf W c.timestamp :=
      hrest c (List.mem_cons_self _ _)
    have hsort2 := (List.pairwise_cons.mp hsort).2
    have hhead := (List.pairwise_cons.mp hsort).1
    by_cases hb : bucketOf W c.timestamp = cur.timestamp
    · rw [groupFoldGo_cons, if_pos hb] at hd
      exact ih (mergeCandle cur c)
        (fun x hx => hrest x (List.mem_cons_of_mem _ hx)) hsort2 d hd
    · rw [groupFoldGo_cons, if_neg hb] at hd
      rcases List.mem_cons.mp hd with h1 | h1
      · subst h1
        exact le_refl _
      · have hlb := ih (seedFrom (bucketOf W c.timestamp) c)
          (fun x hx => bucketOf_mono W (hhead x hx)) hsort2 d h1
        exact le_trans hcb hlb

theorem groupFoldGo_chain (W : Nat) : ∀ (rest : List Candle) (cur : Candle),
    (∀ x ∈ rest, cur.timestamp ≤ bucketOf W x.timestamp) →
    List.Pairwise (fun a b => a.timestamp ≤ b.timestamp) rest →
    List.Chain' (fun a b => a.timestamp < b.timestamp)
      (groupFoldGo W cur rest) := by
  intro rest
  induction rest with
  | nil => intro cur _ _; exact List.chain'_singleton cur
  | cons c rest2 ih =>
    intro cur hrest hsort
    have hcb : cur.timestamp ≤ bucketOf W c.timestamp :=
      hrest c (List.mem_cons_self _ _)
    have hsort2 := (List.pairwise_cons.mp hsort).2
    have hhead := (List.pairwise_cons.mp hsort).1
    by_cases hb : bucketOf W c.timestamp = cur.timestamp
    · rw [groupFoldGo_cons, if_pos hb]
      exact ih (mergeCandle cur c)
        (fun x hx => hrest x (List.mem_cons_of_mem _ hx)) hsort2
    · have hlt : cur.timestamp < bucketOf W c.timestamp :=
        lt_of_le_of_ne hcb (fun h => hb h.symm)
      have hrest2 : ∀ x ∈ rest2,
          (seedFrom (bucketOf W c.timestamp) c).timestamp ≤
            bucketOf W x.timestamp :=
        fun x hx => bucketOf_mono W (hhead x hx)
      obtain ⟨d, l2, he, ht⟩ :=
        groupFoldGo_head W rest2 (seedFrom (bucketOf W c.timestamp) c)
      rw [groupFoldGo_cons, if_neg hb, he]
      refine List.chain'_cons.mpr ⟨?_, ?_⟩
      · rw [ht]
        exact hlt
      · rw [← he]
        exact ih (seedFrom (bucketOf W c.timestamp) c) hrest2 hsort2

theorem groupFoldGo_cover (W : Nat) :
    ∀ (rest g0 : List Candle) (cur : Candle),
    (∀ s ∈ g0, bucketOf W s.timestamp = cur.timestamp) →
    ∀ s ∈ g0 ++ rest, ∃ d ∈ groupFoldGo W cur rest,
      d.timestamp = bucketOf W s.timestamp := by
  intro rest
  induction rest with
  | nil =>
    intro g0 cur hg s hs
    rw [List.append_nil] at hs
    exact ⟨cur, List.mem_singleton.mpr rfl, (hg s hs).symm⟩
  | cons c rest2 ih =>
    intro g0 cur hg s hs
    by_cases hb : bucketOf W c.timestamp = cur.timestamp
    · have hg2 : ∀ x ∈ g0 ++ [c],
          bucketOf W x.timestamp = (mergeCandle cur c).timestamp := by
        intro x hx
        rcases List.mem_append.mp hx with h1 | h1
        · exact hg x h1
        · simp only [List.mem_singleton] at h1
          subst h1
          exact hb
      have hs2 : s ∈ (g0 ++ [c]) ++ rest2 := by
        rw [List.append_assoc]
        exact hs
      obtain ⟨d, hd, ht⟩ := ih (g0 ++ [c]) (mergeCandle cur c) hg2 s hs2
      refine ⟨d, ?_, ht⟩
      rw [groupFoldGo_cons, if_pos hb]
      exact hd
    · rcases List.mem_append.mp hs with h1 | h1
      · refine ⟨cur, ?_, (hg s h1).symm⟩
        rw [groupFoldGo_cons, if_neg hb]
        exact List.mem_cons_self _ _
      · have hgc : ∀ x ∈ [c], bucketOf W x.timestamp =
            (seedFrom (bucketOf W c.timestamp) c).timestamp := by
          intro x hx
          simp only [List.mem_singleton] at hx
          subst hx
          rfl
        obtain ⟨d, hd, ht⟩ := ih [c]
          (seedFrom (bucketOf W c.timestamp) c) hgc s h1
        refine ⟨d, ?_, ht⟩
        rw [groupFoldGo_cons, if_neg hb]
        exact List.mem_cons_of_mem _ hd

theorem aggregates_single (c : Candle) (b : Nat) :
    Aggregates [c] (seedFrom b c) := by
  refine ⟨c, c, rfl, rfl, rfl, rfl, ?_, ?_, ?_, ?_⟩
  · exact List.mem_singleton.mpr rfl
  · intro x hx
    simp only [List.map_cons, List.map_nil, List.mem_singleton] at hx
    subst hx
    exact le_refl _
  · exact List.mem_singleton.mpr rfl
  · intro x hx
    simp only [List.map_cons, List.map_nil, List.mem_singleton] at hx
    subst hx
    exact le_refl _

theorem aggregates_merge (g0 : List Candle) (cur c : Candle)
    (h : Aggregates g0 cur) :
    Aggregates (g0 ++ [c]) (mergeCandle cur c) := by
  obtain ⟨gf, gl, hh, hl, ho, hc, hhm, hhb, hlm, hlb⟩ := h
  refine ⟨gf, c, ?_, List.getLast?_concat _, ho, rfl, ?_, ?_, ?_, ?_⟩
  · cases g0 with
    | nil => exact absurd hh (by simp)
    | cons a t =>
      simp only [List.cons_append, List.head?_cons] at hh ⊢
      exact hh
  · show max cur.high c.high ∈ _
    rw [List.map_append]
    rcases max_choice cur.high c.high with h1 | h1
    · rw [h1]
      exact List.mem_append_left _ hhm
    · rw [h1]
      apply List.mem_append_right
      simp
  · intro x hx
    rw [List.map_append] at hx
    rcases List.mem_append.mp hx with h1 | h1
    · exact le_trans (hhb x h1) (le_max_left _ _)
    · simp only [List.map_cons, List.map_nil, List.mem_singleton] at h1
      subst h1
      exact le_max_right _ _
  · show min cur.low c.low ∈ _
    rw [List.map_append]
    rcases min_choice cur.low c.low with h1 | h1
    · rw [h1]
      exact List.mem_append_left _ hlm
    · rw [h1]
      apply List.mem_append_right
      simp
  · intro x hx
    rw [List.map_append] at hx
    rcases List.mem_append.mp hx with h1 | h1
    · exact le_trans (min_le_left _ _) (hlb x h1)
    · simp only [List.map_cons, List.map_nil, List.mem_singleton] at h1
      subst h1
      exact min_le_right _ _

theorem groupFoldGo_agg (W : Nat) :
    ∀ (rest g0 : List Candle) (cur : Candle),
    (∀ s ∈ g0, bucketOf W s.timestamp = cur.timestamp) →
    Aggregates g0 cur →
    (∀ x ∈ rest, cur.timestamp ≤ bucketOf W x.timestamp) →
    List.Pairwise (fun a b => a.timestamp ≤ b.timestamp) rest →
    ∀ d ∈ groupFoldGo W cur rest,
      Aggregates ((g0 ++ rest).filter
        (fun s => decide (bucketOf W s.timestamp = d.timestamp))) d := by
  intro rest
  induction rest with
  | nil =>
    intro g0 cur hg hagg _ _ d hd
    rw [groupFoldGo_nil, List.mem_singleton] at hd
    subst hd
    rw [List.append_nil]
    have hfil : g0.filter
        (fun s => decide (bucketOf W s.timestamp = d.timestamp)) = g0 :=
      List.filter_eq_self.mpr (fun s hs => by simp [hg s hs])
    rw [hfil]
    exact hagg
  | cons c rest2 ih =>
    intro g0 cur hg hagg hrest hsort d hd
    have hcb : cur.timestamp ≤ bucketOf W c.timestamp :=
      hrest c (List.mem_cons_self _ _)
    have hsort2 := (List.pairwise_cons.mp hsort).2
    have hhead := (List.pairwise_cons.mp hsort).1
    by_cases hb : bucketOf W c.timestamp = cur.timestamp
    · rw [groupFoldGo_cons, if_pos hb] at hd
      have hg2 : ∀ s ∈ g0 ++ [c],
          bucketOf W s.timestamp = (mergeCandle cur c).timestamp := by
        intro s hs
        rcases List.mem_append.mp hs with h1 | h1
        · exact hg s h1
        · simp only [List.mem_singleton] at h1
          subst h1
          exact hb
      have hres := ih (g0 ++ [c]) (mergeCandle cur c) hg2
        (aggregates_merge g0 cur c hagg)
        (fun x hx => hrest x (List.mem_cons_of_mem _ hx)) hsort2 d hd
      rw [List.append_assoc] at hres
      exact hres
    · have hlt : cur.timestamp < bucketOf W c.timestamp :=
        lt_of_le_of_ne hcb (fun h => hb h.symm)
      rw [groupFoldGo_cons, if_neg hb] at hd
      rcases List.mem_cons.mp hd with hd1 | hd1
      · subst hd1
        have hfil : (g0 ++ (c :: rest2)).filter
            (fun s => decide (bucketOf W s.timestamp = d.timestamp))
            = g0 := by
          rw [List.filter_append]
          have h1 : g0.filter
              (fun s => decide (bucketOf W s.timestamp = d.timestamp))
              = g0 :=
            List.filter_eq_self.mpr (fun s hs => by simp [hg s hs])
          have h2 : (c :: rest2).filter
              (fun s => decide (bucketOf W s.timestamp = d.timestamp))
              = [] := by
            apply List.filter_eq_nil_iff.mpr
            intro x hx
            rcases List.mem_cons.mp hx with h3 | h3
            · subst h3
              simp only [decide_eq_true_eq]
              omega
            · have h4 : bucketOf W c.timestamp ≤ bucketOf W x.timestamp :=
                bucketOf_mono W (hhead x h3)
              simp only [decide_eq_true_eq]
              omega
          rw [h1, h2, List.append_nil]
        rw [hfil]
        exact hagg
      · have hgc : ∀ s ∈ [c], bucketOf W s.timestamp =
            (seedFrom (bucketOf W c.timestamp) c).timestamp := by
          intro s hs
          simp only [List.mem_singleton] at hs
          subst hs
          rfl
        have hrest2 : ∀ x ∈ rest2,
            (seedFrom (bucketOf W c.timestamp) c).timestamp ≤
              bucketOf W x.timestamp :=
          fun x hx => bucketOf_mono W (hhead x hx)
        have hres := ih [c] (seedFrom (bucketOf W c.timestamp) c) hgc
          (aggregates_single c _) hrest2 hsort2 d hd1
        have hdlb : bucketOf W c.timestamp ≤ d.timestamp :=
          groupFoldGo_ts_lb W rest2 (seedFrom (bucketOf W c.timestamp) c)
            hrest2 hsort2 d hd1
        have hg0nil : g0.filter
            (fun s => decide (bucketOf W s.timestamp = d.timestamp))
            = [] := by
          apply List.filter_eq_nil_iff.mpr
          intro s hs
          have h1 := hg s hs
          simp only [decide_eq_true_eq]
          omega
        have hsplit : g0 ++ (c :: rest2) = g0 ++ ([c] ++ rest2) := rfl
        rw [hsplit, List.filter_append, hg0nil, List.nil_append]
        exact hres

/-- C6 (amended): on a chronologically sorted non-empty source list (the
at-rest state of every candle series) and a positive target width,
generateLongerInterval buckets each source candle at
floor(ts/width)*width, returns a strictly ascending list in which every
source candle's bucket is represented, and each derived candle aggregates
exactly the source candles of its bucket: open from the bucket's first
candle, close from its last, high the maximum of its highs and low the
minimum of its lows.  On an unsorted list, the merge instead takes the
list-order last close, not the chronologically last one. -/
theorem deriveInterval_spec (src : List Candle) (W : Nat) (hne : src ≠ [])
    (hW : 0 < W)
    (hsort : List.Pairwise (fun a b => a.timestamp ≤ b.timestamp) src) :
    List.Chain' (fun a b => a.timestamp < b.timestamp)
      (generateLongerInterval src W) ∧
    (∀ s ∈ src, ∃ d ∈ generateLongerInterval src W,
      d.timestamp = bucketOf W s.timestamp) ∧
    (∀ d ∈ generateLongerInterval src W,
      Aggregates (src.filter
        (fun s => decide (bucketOf W s.timestamp = d.timestamp))) d) := by
  cases src with
  | nil => exact absurd rfl hne
  | cons c0 rest =>
    have hsort2 := (List.pairwise_cons.mp hsort).2
    have hhead := (List.pairwise_cons.mp hsort).1
    have hrest : ∀ x ∈ rest,
        (seedFrom (bucketOf W c0.timestamp) c0).timestamp ≤
          bucketOf W x.timestamp :=
      fun x hx => bucketOf_mono W (hhead x hx)
    have hfold : List.foldl (genStep W) [] (c0 :: rest) =
        groupFoldGo W (seedFrom (bucketOf W c0.timestamp) c0) rest := by
      rw [List.foldl_cons]
      have hstep : genStep W [] c0 =
          [] ++ [seedFrom (bucketOf W c0.timestamp) c0] := rfl
      rw [hstep, foldl_genStep_eq W rest []
        (seedFrom (bucketOf W c0.timestamp) c0)
        (by intro r hr; simp at hr) hrest hsort2, List.nil_append]
    have hchain := groupFoldGo_chain W rest
      (seedFrom (bucketOf W c0.timestamp) c0) hrest hsort2
    have hgen : generateLongerInterval (c0 :: rest) W =
        groupFoldGo W (seedFrom (bucketOf W c0.timestamp) c0) rest := by
      unfold generateLongerInterval
      simp only [List.isEmpty_cons, Bool.false_eq_true, if_false]
      rw [hfold]
      exact sortByTs_of_chain _ (hchain.imp (fun a b h => le_of_lt h))
    have hg0 : ∀ s ∈ [c0], bucketOf W s.timestamp =
        (seedFrom (bucketOf W c0.timestamp) c0).timestamp := by
      intro s hs
      simp only [List.mem_singleton] at hs
      subst hs
      rfl
    refine ⟨?_, ?_, ?_⟩
    · rw [hgen]
      exact hchain
    · intro s hs
      rw [hgen]
      exact groupFoldGo_cover W rest [c0] _ hg0 s hs
    · intro d hd
      rw [hgen] at hd
      exact groupFoldGo_agg W rest [c0] _ hg0
        (aggregates_single c0 (bucketOf W c0.timestamp)) hrest hsort2 d hd

/-- Witness for C6's amended theorem: three sorted source candles spanning
two 100ms buckets derive two candles: the first bucket's pair merges to
{open 1, high 5, low 0, close 4} and the second bucket's single candle is
kept as {open 4, high 6, low 2, close 3}. -/
theorem deriveInterval_spec_witness :
    (List.Chain' (fun a b => a.timestamp < b.timestamp)
      (generateLongerInterval deriveSrc 100) ∧
    (∀ s ∈ deriveSrc, ∃ d ∈ generateLongerInterval deriveSrc 100,
      d.timestamp = bucketOf 100 s.timestamp) ∧
    (∀ d ∈ generateLongerInterval deriveSrc 100,
      Aggregates (deriveSrc.filter
        (fun s => decide (bucketOf 100 s.timestamp = d.timestamp))) d)) ∧
    generateLongerInterval deriveSrc 100 =
      [⟨0, 1, 5, 0, 4⟩, ⟨100, 4, 6, 2, 3⟩] :=
  ⟨deriveInterval_spec deriveSrc 100 (by decide) (by decide) (by decide),
   by decide⟩

/-- C6 counterexample: on an unsorted source list whose chronologically
last candle (timestamp 70, close 5) comes first, the merge takes the
list-order last close 7, so the derived candle's close is not the
chronologically last source close. -/
theorem deriveInterval_counterexample :
    generateLongerInterval cexUnsortedSrc 100 = [⟨0, 1, 2, 1, 7⟩] ∧
    (sortByTs cexUnsortedSrc).getLast? = some ⟨70, 1, 1, 1, 5⟩ ∧
    ((7 : ℚ)) ≠ 5 := by decide
